import Mathlib

/-!
Shallow embedding of the near-duplicate detection core in `src/minhash.rs`:
the `LSH` candidate index (`check`, `check_and_add`, `keys`, `values`,
`length`), the `SuperMinHasher` sketching pipeline (preprocess, shingle,
accumulate, finalize) and the `SuperMinHasherLSH` facade.

Modelling conventions:
* A signature slot is the 4-byte little-endian bit pattern of an `f32`.
  `f32::to_le_bytes` is injective on bit patterns and the index only ever
  compares these byte strings for equality, so a slot is modelled as a `Nat`
  (the bit pattern) and the `Vec<f32> -> Vec<Vec<u8>>` conversion in
  `check`/`check_and_add` becomes the identity; `values()`'s inverse decoding
  `f32::from_le_bytes` likewise becomes the identity.
* `FnvHashMap` is modelled as an association list with insert-overwrites
  semantics (`insertA`); `FnvHashSet<usize>` as a duplicate-free list with
  insert-if-absent (`insertSet`).
* `f64` similarity arithmetic (`count as f64 / a.len() as f64` and the
  `>= threshold` comparison) is modelled as exact rational arithmetic.
* Rust's `b[i]` indexing in `similarity_threshold` panics when the stored
  signature is shorter than the query; a panic is modelled as `none`
  (`Option`-valued `check`/`check_and_add`).
-/

/-- A signature slot value: the 4-byte little-endian bit pattern of one `f32`
signature component. -/
abbrev Slot := Nat

/-- `HashMap::insert` on an association list: overwrite the value of an
existing key, otherwise append the binding. -/
def insertA {α β : Type} [DecidableEq α] (m : List (α × β)) (k : α) (v : β) :
    List (α × β) :=
  match m with
  | [] => [(k, v)]
  | (k', v') :: rest =>
    if k' = k then (k, v) :: rest else (k', v') :: insertA rest k v

/-- `HashMap::get` on an association list. -/
def lookupA {α β : Type} [DecidableEq α] (m : List (α × β)) (k : α) :
    Option β :=
  match m with
  | [] => none
  | (k', v') :: rest => if k' = k then some v' else lookupA rest k

/-- `HashSet::insert` on a duplicate-free list: add the element if absent. -/
def insertSet (l : List Nat) (p : Nat) : List Nat :=
  if p ∈ l then l else l ++ [p]

/-- The `LSH` candidate index state (`struct LSH` in `src/minhash.rs`):
`candidates` is the inverted bucket index from a slot value to the set of
corpus positions containing that value in any slot; `hashes` is the ordered
corpus of signatures; `ids` the ordered corpus of ids; `id_map` maps an id to
its most recently inserted corpus position. -/
structure LSH where
  candidates : List (Slot × List Nat)
  hashes : List (List Slot)
  ids : List String
  id_map : List (String × Nat)
  deriving DecidableEq

/-- `LSH::new`: the empty index. -/
def LSH.new : LSH :=
  { candidates := [], hashes := [], ids := [], id_map := [] }

/-- `LSH::keys`: the ids in insertion order. -/
def LSH.keys (lsh : LSH) : List String :=
  lsh.ids

/-- `LSH::values`: the stored signatures in insertion order (the Rust code
decodes each 4-byte pattern back to an `f32`; the decoding is the inverse of
the encoding, so it is the identity in this model). -/
def LSH.values (lsh : LSH) : List (List Slot) :=
  lsh.hashes

/-- `LSH::length`: the number of stored documents. -/
def LSH.length (lsh : LSH) : Nat :=
  lsh.ids.length

/-- The number of positions `i` with `a[i] == b[i]`, counted over the common
prefix (the Rust loop runs `i` over `0..a.len()`). -/
def matchCount (a b : List Slot) : Nat :=
  ((a.zip b).filter (fun q => q.1 == q.2)).length

/-- `similarity_threshold(a, b)`: iterates `i` over `0..a.len()` counting
positions with `a[i] == b[i]` and divides by `a.len()`. When
`a.len() > b.len()` the Rust indexing `b[i]` panics, modelled as `none`. -/
def similarity_threshold (a b : List Slot) : Option ℚ :=
  if a.length ≤ b.length then
    some ((matchCount a b : ℚ) / (a.length : ℚ))
  else none

/-- Bucket lookup: the set of corpus positions registered for slot value `v`
(`self.candidates.get(x)`, with a missing bucket read as the empty set). -/
def bucketLookup (c : List (Slot × List Nat)) (v : Slot) : List Nat :=
  match lookupA c v with
  | some l => l
  | none => []

/-- The candidate set of `check`: the union over every query slot value of
that value's bucket (`flat_map` + `collect` into an `FnvHashSet<usize>`),
modelled as a deduplicated list of positions. -/
def candidateList (lsh : LSH) (data : List Slot) : List Nat :=
  (data.flatMap (fun v => bucketLookup lsh.candidates v)).dedup

/-- One iteration of `check`'s candidate loop at position `p`: skip positions
with no stored hash, compute the similarity (propagating a panic as `none`),
and on `similarity >= threshold` insert `(id, similarity)` into the result
map when the position has an id. -/
def candStep (lsh : LSH) (data : List Slot) (θ : ℚ) (p : Nat)
    (acc : List (String × ℚ)) : Option (List (String × ℚ)) :=
  match lsh.hashes[p]? with
  | none => some acc
  | some h =>
    match similarity_threshold data h with
    | none => none
    | some sim =>
      if θ ≤ sim then
        match lsh.ids[p]? with
        | some id => some (insertA acc id sim)
        | none => some acc
      else some acc

/-- `check`'s candidate loop: fold `candStep` over the candidate positions,
starting from the empty result map. -/
def processCandidates (lsh : LSH) (data : List Slot) (θ : ℚ) :
    List Nat → List (String × ℚ) → Option (List (String × ℚ))
  | [], acc => some acc
  | p :: rest, acc =>
    match candStep lsh data θ p acc with
    | none => none
    | some acc' => processCandidates lsh data θ rest acc'

/-- `LSH::check(data, threshold)`: bucket lookup over every query slot value,
then exact position-aligned verification of each candidate against the
threshold. `none` models a panic inside `similarity_threshold`. -/
def LSH.check (lsh : LSH) (data : List Slot) (θ : ℚ) :
    Option (List (String × ℚ)) :=
  processCandidates lsh data θ (candidateList lsh data) []

/-- `entry(v).or_insert(empty).insert(p)` on the inverted bucket index. -/
def bucketInsert (c : List (Slot × List Nat)) (v : Slot) (p : Nat) :
    List (Slot × List Nat) :=
  match lookupA c v with
  | some l => insertA c v (insertSet l p)
  | none => insertA c v [p]

/-- The insertion block of `check_and_add` (lines 121-130 of
`src/minhash.rs`): append the id and the signature, point `id_map` at the new
position, and register every slot value of the signature in the inverted
bucket index under that position. -/
def LSH.addDoc (lsh : LSH) (new_id : String) (data : List Slot) : LSH :=
  { candidates := data.foldl (fun c v => bucketInsert c v lsh.ids.length)
      lsh.candidates
    hashes := lsh.hashes ++ [data]
    ids := lsh.ids ++ [new_id]
    id_map := insertA lsh.id_map new_id lsh.ids.length }

/-- `LSH::check_and_add(new_id, data, threshold, add_if_dup)`: run `check` on
the pre-call state, insert the document when the result is empty or
`add_if_dup` holds, and return the pre-insert check result. -/
def LSH.check_and_add (lsh : LSH) (new_id : String) (data : List Slot)
    (θ : ℚ) (add_if_dup : Bool) : Option (List (String × ℚ) × LSH) :=
  match lsh.check data θ with
  | none => none
  | some r =>
    some (r, if r.isEmpty || add_if_dup then lsh.addDoc new_id data else lsh)

/-- Well-formedness of a reachable index state: ids and hashes march in step,
and every slot value of every stored signature is registered in the inverted
bucket index under that document's position (the append-only bucket invariant
of the spec's data model). -/
def LSH.WF (lsh : LSH) : Prop :=
  lsh.ids.length = lsh.hashes.length ∧
  ∀ p ∈ List.range lsh.hashes.length, ∀ v ∈ lsh.hashes.getD p [],
    p ∈ bucketLookup lsh.candidates v

instance (lsh : LSH) : Decidable lsh.WF := by
  unfold LSH.WF; infer_instance

/-- Modelled from the spec: the `SuperMinHash` accumulator lives in the
external `probminhash` crate, outside this repository. Spec section 4.2 only
requires a faithful single-pass minhash variant whose state records the
multiset of inserted elements and whose per-slot values are order-independent
functions of that multiset; the model records the insertion sequence and
extracts, per slot, the minimum of a deterministic hash over the inserted
elements. -/
structure SuperMinHashState where
  size : Nat
  elems : List (List Char)
  deriving DecidableEq

/-- Modelled from the spec: `SuperMinHash::new(size, bh)` starts from the
empty-multiset state. -/
def SuperMinHashState.init (size : Nat) : SuperMinHashState :=
  ⟨size, []⟩

/-- Modelled from the spec: `reinit()` clears all internal state back to the
empty-multiset starting condition. -/
def SuperMinHashState.reinit (st : SuperMinHashState) : SuperMinHashState :=
  ⟨st.size, []⟩

/-- Modelled from the spec: `sketch(&e)` inserts one element into the
accumulated multiset. -/
def SuperMinHashState.sketchElem (st : SuperMinHashState) (e : List Char) :
    SuperMinHashState :=
  ⟨st.size, st.elems ++ [e]⟩

/-- Modelled from the spec: a deterministic per-slot hash of one element
(stand-in for the crate's `FnvHasher`-seeded permutations). -/
def slotHash (i : Nat) (e : List Char) : Nat :=
  e.foldl (fun a c => (a * 131 + c.toNat + 1) % 1000003) (i % 1000003)

/-- Modelled from the spec: the slot value of an accumulator that has seen no
elements (outside the range of `slotHash`). -/
def emptySlotValue : Nat :=
  1000003

/-- Modelled from the spec: `get_hsketch()` reads the current signature; slot
`i` holds the minimum of `slotHash i` over the inserted multiset. -/
def SuperMinHashState.get_hsketch (st : SuperMinHashState) : List Slot :=
  (List.range st.size).map
    (fun i => (st.elems.map (slotHash i)).foldr min emptySlotValue)

/-- External text transformations used by the preprocessing pipeline (the
`icu` NFKC normalizer, the `[\s\p{Punctuation}]+ -> " "` regex replacement,
the `zhconv` traditional-to-simplified converter and Rust's
`String::to_lowercase`), all outside this repository; the pipeline is
modelled parametrically in them. -/
structure TextStages where
  nfkc : List Char → List Char
  spPunctFold : List Char → List Char
  zhToHans : List Char → List Char
  lower : List Char → List Char

/-- The `SuperMinHasher` state (`struct SuperMinHasher` in `src/minhash.rs`):
the live accumulator plus the construction-time configuration. -/
structure SuperMinHasher where
  minhash : SuperMinHashState
  n_gram : Nat
  lowercase : Bool
  unicode_normalize : Bool
  zh_conv : Bool
  punct_norm : Bool
  deriving DecidableEq

/-- `SuperMinHasher::new(size, n_gram, ...)`: rejects `size == 0` and
`n_gram == 0` with a `ValueError`, otherwise builds the sketcher with a fresh
accumulator. -/
def SuperMinHasher.new (size n_gram : Nat)
    (lowercase unicode_normalize zh_conv punct_norm : Bool) :
    Except String SuperMinHasher :=
  if size = 0 then .error "size must be greater than 0"
  else if n_gram = 0 then .error "n_gram must be greater than 0"
  else .ok ⟨SuperMinHashState.init size, n_gram,
    lowercase, unicode_normalize, zh_conv, punct_norm⟩

/-- The preprocessing pipeline of `SuperMinHasher::sketch` (lines 187-198 of
`src/minhash.rs`): NFKC normalization, whitespace/punctuation folding, script
unification, lowercasing — in this order, each applied exactly when its
toggle is set. -/
def preprocess (ts : TextStages) (h : SuperMinHasher) (s : List Char) :
    List Char :=
  let s1 := if h.unicode_normalize then ts.nfkc s else s
  let s2 := if h.punct_norm then ts.spPunctFold s1 else s1
  let s3 := if h.zh_conv then ts.zhToHans s2 else s2
  if h.lowercase then ts.lower s3 else s3

/-- The shingling of `SuperMinHasher::sketch` (lines 199-209): when the
processed text has fewer than `n_gram` characters the whole character
sequence is one shingle, otherwise the overlapping windows
`cs[i..i + n_gram]` for `i` in `0..cs.len() - n_gram + 1`, left to right. -/
def shingles (n_gram : Nat) (cs : List Char) : List (List Char) :=
  if cs.length < n_gram then [cs]
  else (List.range (cs.length - n_gram + 1)).map
    (fun i => (cs.drop i).take n_gram)

/-- `SuperMinHasher::sketch(s)`: preprocess, shingle, and feed every shingle
into the live accumulator in left-to-right order. -/
def SuperMinHasher.sketch (ts : TextStages) (h : SuperMinHasher)
    (s : List Char) : SuperMinHasher :=
  { h with minhash := ((shingles h.n_gram (preprocess ts h s)).foldl
      SuperMinHashState.sketchElem h.minhash) }

/-- `SuperMinHasher::finalize()`: read the current signature off the
accumulator, then reinitialize the accumulator. -/
def SuperMinHasher.finalize (h : SuperMinHasher) :
    List Slot × SuperMinHasher :=
  (h.minhash.get_hsketch, { h with minhash := h.minhash.reinit })

/-- `SuperMinHasher::sketch_and_finalize(s)`: the composition of `sketch` and
`finalize`. -/
def SuperMinHasher.sketch_and_finalize (ts : TextStages) (h : SuperMinHasher)
    (s : List Char) : List Slot × SuperMinHasher :=
  (h.sketch ts s).finalize

/-- The `SuperMinHasherLSH` facade: a candidate index plus a sketcher. -/
structure SuperMinHasherLSH where
  lsh : LSH
  minhasher : SuperMinHasher
  deriving DecidableEq

/-- `SuperMinHasherLSH::new`: forwards the parameters to
`SuperMinHasher::new` (propagating its validation error) and pairs the
sketcher with an empty index. -/
def SuperMinHasherLSH.new (size n_gram : Nat)
    (lowercase unicode_normalize zh_conv punct_norm : Bool) :
    Except String SuperMinHasherLSH :=
  match SuperMinHasher.new size n_gram
      lowercase unicode_normalize zh_conv punct_norm with
  | .error e => .error e
  | .ok m => .ok ⟨LSH.new, m⟩

/-- `SuperMinHasherLSH::check_and_add(new_id, data, threshold, add,
add_if_dup)`: sketch the text, finalize to a signature, run the index-level
`check_and_add` (when `add`) or a pure `check` (otherwise), then reinit the
accumulator once more before returning. -/
def SuperMinHasherLSH.check_and_add (ts : TextStages) (f : SuperMinHasherLSH)
    (new_id : String) (data : List Char) (θ : ℚ) (add add_if_dup : Bool) :
    Option (List (String × ℚ) × SuperMinHasherLSH) :=
  let m1 := f.minhasher.sketch ts data
  if add then
    match f.lsh.check_and_add new_id m1.finalize.1 θ add_if_dup with
    | none => none
    | some (r, lsh') =>
      some (r, ⟨lsh',
        { m1.finalize.2 with minhash := m1.finalize.2.minhash.reinit }⟩)
  else
    match f.lsh.check m1.finalize.1 θ with
    | none => none
    | some r =>
      some (r, ⟨f.lsh,
        { m1.finalize.2 with minhash := m1.finalize.2.minhash.reinit }⟩)

/-- `SuperMinHasherLSH::keys`: forwarded to the index. -/
def SuperMinHasherLSH.keys (f : SuperMinHasherLSH) : List String :=
  f.lsh.keys

/-- `SuperMinHasherLSH::values`: forwarded to the index. -/
def SuperMinHasherLSH.values (f : SuperMinHasherLSH) : List (List Slot) :=
  f.lsh.values

/-- `SuperMinHasherLSH::length`: forwarded to the index. -/
def SuperMinHasherLSH.length (f : SuperMinHasherLSH) : Nat :=
  f.lsh.length

/-- Conditional application of one preprocessing stage: the spec-side
description of a toggleable stage. -/
def applyIf (b : Bool) (f : List Char → List Char) (s : List Char) :
    List Char :=
  if b then f s else s

theorem lookupA_insertA_self {α β : Type} [DecidableEq α]
    (m : List (α × β)) (k : α) (v : β) :
    lookupA (insertA m k v) k = some v := by
  induction m with
  | nil => simp [insertA, lookupA]
  | cons kv rest ih =>
    obtain ⟨k', v'⟩ := kv
    by_cases h : k' = k <;> simp [insertA, lookupA, h, ih]

theorem lookupA_insertA_ne {α β : Type} [DecidableEq α]
    (m : List (α × β)) (k k' : α) (v : β) (h : k' ≠ k) :
    lookupA (insertA m k v) k' = lookupA m k' := by
  induction m with
  | nil => simp [insertA, lookupA, h.symm]
  | cons kv rest ih =>
    obtain ⟨k'', v''⟩ := kv
    by_cases hk : k'' = k
    · subst hk
      simp [insertA, lookupA, h.symm]
    · simp [insertA, lookupA, hk, ih]

theorem mem_keys_insertA {α β : Type} [DecidableEq α]
    (m : List (α × β)) (k x : α) (v : β) :
    x ∈ (insertA m k v).map Prod.fst ↔ x ∈ m.map Prod.fst ∨ x = k := by
  induction m with
  | nil => simp [insertA]
  | cons kv rest ih =>
    obtain ⟨k', v'⟩ := kv
    by_cases h : k' = k
    · subst h
      simp [insertA]
      tauto
    · simp [insertA, h, ih]
      tauto

theorem nodup_keys_insertA {α β : Type} [DecidableEq α]
    (m : List (α × β)) (k : α) (v : β) (h : (m.map Prod.fst).Nodup) :
    ((insertA m k v).map Prod.fst).Nodup := by
  induction m with
  | nil => simp [insertA]
  | cons kv rest ih =>
    obtain ⟨k', v'⟩ := kv
    simp only [List.map_cons, List.nodup_cons] at h
    by_cases hk : k' = k
    · subst hk
      simpa [insertA] using h
    · have hmap : (insertA ((k', v') :: rest) k v).map Prod.fst
          = k' :: (insertA rest k v).map Prod.fst := by
        simp [insertA, hk]
      rw [hmap, List.nodup_cons]
      refine ⟨?_, ih h.2⟩
      intro hmem
      rw [mem_keys_insertA] at hmem
      rcases hmem with hmem | hmem
      · exact h.1 hmem
      · exact hk hmem

theorem candStep_isSome (lsh : LSH) (data : List Slot) (θ : ℚ) (p : Nat)
    (acc : List (String × ℚ))
    (h : ∀ hh, lsh.hashes[p]? = some hh → data.length ≤ hh.length) :
    ∃ acc', candStep lsh data θ p acc = some acc' := by
  cases hg : lsh.hashes[p]? with
  | none => exact ⟨acc, by simp [candStep, hg]⟩
  | some hh =>
    have hlen := h hh hg
    by_cases hs : θ ≤ (matchCount data hh : ℚ) / (data.length : ℚ)
    · cases hi : lsh.ids[p]? with
      | none =>
        exact ⟨acc, by simp [candStep, hg, similarity_threshold, hlen, hs, hi]⟩
      | some id =>
        exact ⟨insertA acc id ((matchCount data hh : ℚ) / (data.length : ℚ)),
          by simp [candStep, hg, similarity_threshold, hlen, hs, hi]⟩
    · exact ⟨acc, by simp [candStep, hg, similarity_threshold, hlen, hs]⟩

theorem candStep_insert (lsh : LSH) (data : List Slot) (θ : ℚ) (p : Nat)
    (acc : List (String × ℚ)) (id : String) (hh : List Slot) (v : ℚ)
    (hph : lsh.hashes[p]? = some hh)
    (hpv : similarity_threshold data hh = some v)
    (hθ : θ ≤ v) (hpid : lsh.ids[p]? = some id) :
    candStep lsh data θ p acc = some (insertA acc id v) := by
  simp [candStep, hph, hpv, hθ, hpid]

theorem candStep_sound (lsh : LSH) (data : List Slot) (θ : ℚ) (p : Nat)
    (acc acc' : List (String × ℚ))
    (hstep : candStep lsh data θ p acc = some acc') (id : String) (v : ℚ)
    (hl : lookupA acc' id = some v) :
    lookupA acc id = some v ∨
      (lsh.ids[p]? = some id ∧ ∃ hh, lsh.hashes[p]? = some hh ∧
        similarity_threshold data hh = some v ∧ θ ≤ v) := by
  cases hg : lsh.hashes[p]? with
  | none =>
    simp only [candStep, hg, Option.some.injEq] at hstep
    subst hstep
    exact Or.inl hl
  | some hh =>
    simp only [candStep, hg] at hstep
    cases hs : similarity_threshold data hh with
    | none => simp [hs] at hstep
    | some sim =>
      simp only [hs] at hstep
      by_cases hθs : θ ≤ sim
      · rw [if_pos hθs] at hstep
        cases hi : lsh.ids[p]? with
        | none =>
          simp only [hi] at hstep
          obtain rfl : acc = acc' := by injection hstep
          exact Or.inl hl
        | some id' =>
          simp only [hi] at hstep
          obtain rfl : acc' = insertA acc id' sim := by
            injection hstep with hst; exact hst.symm
          by_cases hid : id' = id
          · subst hid
            rw [lookupA_insertA_self] at hl
            obtain rfl : sim = v := by injection hl
            exact Or.inr ⟨rfl, hh, rfl, hs, hθs⟩
          · rw [lookupA_insertA_ne _ _ _ _ (Ne.symm hid)] at hl
            exact Or.inl hl
      · rw [if_neg hθs] at hstep
        obtain rfl : acc = acc' := by injection hstep
        exact Or.inl hl

theorem candStep_preserve (lsh : LSH) (data : List Slot) (θ : ℚ) (p : Nat)
    (acc acc' : List (String × ℚ))
    (hstep : candStep lsh data θ p acc = some acc') (id : String)
    (hid : ∀ id', lsh.ids[p]? = some id' → id' ≠ id) :
    lookupA acc' id = lookupA acc id := by
  cases hg : lsh.hashes[p]? with
  | none =>
    simp only [candStep, hg, Option.some.injEq] at hstep
    subst hstep
    rfl
  | some hh =>
    simp only [candStep, hg] at hstep
    cases hs : similarity_threshold data hh with
    | none => simp [hs] at hstep
    | some sim =>
      simp only [hs] at hstep
      by_cases hθs : θ ≤ sim
      · rw [if_pos hθs] at hstep
        cases hi : lsh.ids[p]? with
        | none =>
          simp only [hi] at hstep
          obtain rfl : acc = acc' := by injection hstep
          rfl
        | some id' =>
          simp only [hi] at hstep
          obtain rfl : acc' = insertA acc id' sim := by
            injection hstep with hst; exact hst.symm
          exact lookupA_insertA_ne _ _ _ _ (Ne.symm (hid id' hi))
      · rw [if_neg hθs] at hstep
        obtain rfl : acc = acc' := by injection hstep
        rfl

theorem candStep_nodup (lsh : LSH) (data : List Slot) (θ : ℚ) (p : Nat)
    (acc acc' : List (String × ℚ))
    (hstep : candStep lsh data θ p acc = some acc')
    (hnd : (acc.map Prod.fst).Nodup) : (acc'.map Prod.fst).Nodup := by
  cases hg : lsh.hashes[p]? with
  | none =>
    simp only [candStep, hg, Option.some.injEq] at hstep
    subst hstep
    exact hnd
  | some hh =>
    simp only [candStep, hg] at hstep
    cases hs : similarity_threshold data hh with
    | none => simp [hs] at hstep
    | some sim =>
      simp only [hs] at hstep
      by_cases hθs : θ ≤ sim
      · rw [if_pos hθs] at hstep
        cases hi : lsh.ids[p]? with
        | none =>
          simp only [hi] at hstep
          obtain rfl : acc = acc' := by injection hstep
          exact hnd
        | some id' =>
          simp only [hi] at hstep
          obtain rfl : acc' = insertA acc id' sim := by
            injection hstep with hst; exact hst.symm
          exact nodup_keys_insertA _ _ _ hnd
      · rw [if_neg hθs] at hstep
        obtain rfl : acc = acc' := by injection hstep
        exact hnd

theorem processCandidates_isSome (lsh : LSH) (data : List Slot) (θ : ℚ)
    (l : List Nat) :
    ∀ acc, (∀ p ∈ l, ∀ hh, lsh.hashes[p]? = some hh →
      data.length ≤ hh.length) →
    ∃ r, processCandidates lsh data θ l acc = some r := by
  induction l with
  | nil => exact fun acc _ => ⟨acc, rfl⟩
  | cons p rest ih =>
    intro acc h
    obtain ⟨acc', hstep⟩ := candStep_isSome lsh data θ p acc (h p (by simp))
    obtain ⟨r, hr⟩ := ih acc' (fun q hq => h q (by simp [hq]))
    exact ⟨r, by simp [processCandidates, hstep, hr]⟩

theorem processCandidates_sound (lsh : LSH) (data : List Slot) (θ : ℚ)
    (l : List Nat) :
    ∀ acc r, processCandidates lsh data θ l acc = some r →
    ∀ id v, lookupA r id = some v →
    lookupA acc id = some v ∨
      ∃ p ∈ l, lsh.ids[p]? = some id ∧ ∃ hh, lsh.hashes[p]? = some hh ∧
        similarity_threshold data hh = some v ∧ θ ≤ v := by
  induction l with
  | nil =>
    intro acc r hp id v hl
    simp only [processCandidates, Option.some.injEq] at hp
    subst hp
    exact Or.inl hl
  | cons p rest ih =>
    intro acc r hp id v hl
    cases hstep : candStep lsh data θ p acc with
    | none => simp [processCandidates, hstep] at hp
    | some acc' =>
      simp only [processCandidates, hstep] at hp
      rcases ih acc' r hp id v hl with h | ⟨q, hq, hrest⟩
      · rcases candStep_sound lsh data θ p acc acc' hstep id v h with h' | h'
        · exact Or.inl h'
        · exact Or.inr ⟨p, by simp, h'⟩
      · exact Or.inr ⟨q, by simp [hq], hrest⟩

theorem processCandidates_preserve (lsh : LSH) (data : List Slot) (θ : ℚ)
    (id : String) (v : ℚ) (p : Nat) (hh : List Slot)
    (hpid : lsh.ids[p]? = some id) (hph : lsh.hashes[p]? = some hh)
    (hpv : similarity_threshold data hh = some v) (hθ : θ ≤ v)
    (l : List Nat) :
    (∀ q ∈ l, lsh.ids[q]? = some id → q = p) →
    ∀ acc r, lookupA acc id = some v →
    processCandidates lsh data θ l acc = some r →
    lookupA r id = some v := by
  induction l with
  | nil =>
    intro _ acc r hacc hp2
    simp only [processCandidates, Option.some.injEq] at hp2
    subst hp2
    exact hacc
  | cons q rest ih =>
    intro huniq acc r hacc hp2
    cases hstep : candStep lsh data θ q acc with
    | none => simp [processCandidates, hstep] at hp2
    | some acc' =>
      simp only [processCandidates, hstep] at hp2
      have hacc' : lookupA acc' id = some v := by
        by_cases hq : q = p
        · subst hq
          rw [candStep_insert lsh data θ q acc id hh v hph hpv hθ hpid]
            at hstep
          obtain rfl : acc' = insertA acc id v := by
            injection hstep with h1; exact h1.symm
          exact lookupA_insertA_self _ _ _
        · have hne : ∀ id', lsh.ids[q]? = some id' → id' ≠ id := by
            intro id' hid' heq
            subst heq
            exact hq (huniq q (by simp) hid')
          rw [candStep_preserve lsh data θ q acc acc' hstep id hne]
          exact hacc
      exact ih (fun q' hq' => huniq q' (by simp [hq'])) acc' r hacc' hp2

theorem processCandidates_complete (lsh : LSH) (data : List Slot) (θ : ℚ)
    (id : String) (v : ℚ) (p : Nat) (hh : List Slot)
    (hpid : lsh.ids[p]? = some id) (hph : lsh.hashes[p]? = some hh)
    (hpv : similarity_threshold data hh = some v) (hθ : θ ≤ v)
    (l : List Nat) :
    (∀ q ∈ l, lsh.ids[q]? = some id → q = p) → p ∈ l →
    ∀ acc r, processCandidates lsh data θ l acc = some r →
    lookupA r id = some v := by
  induction l with
  | nil =>
    intro _ hmem
    exact absurd hmem (List.not_mem_nil p)
  | cons q rest ih =>
    intro huniq hmem acc r hp2
    cases hstep : candStep lsh data θ q acc with
    | none => simp [processCandidates, hstep] at hp2
    | some acc' =>
      simp only [processCandidates, hstep] at hp2
      by_cases hq : q = p
      · subst hq
        rw [candStep_insert lsh data θ q acc id hh v hph hpv hθ hpid] at hstep
        obtain rfl : acc' = insertA acc id v := by
          injection hstep with h1; exact h1.symm
        exact processCandidates_preserve lsh data θ id v q hh hpid hph hpv hθ
          rest (fun q' hq' => huniq q' (by simp [hq'])) _ r
          (lookupA_insertA_self _ _ _) hp2
      · have hpm : p ∈ rest := by
          rcases List.mem_cons.mp hmem with h1 | h1
          · exact absurd h1.symm hq
          · exact h1
        exact ih (fun q' hq' => huniq q' (by simp [hq'])) hpm acc' r hp2

theorem processCandidates_nodup (lsh : LSH) (data : List Slot) (θ : ℚ)
    (l : List Nat) :
    ∀ acc r, processCandidates lsh data θ l acc = some r →
    (acc.map Prod.fst).Nodup → (r.map Prod.fst).Nodup := by
  induction l with
  | nil =>
    intro acc r hp hnd
    simp only [processCandidates, Option.some.injEq] at hp
    subst hp
    exact hnd
  | cons q rest ih =>
    intro acc r hp hnd
    cases hstep : candStep lsh data θ q acc with
    | none => simp [processCandidates, hstep] at hp
    | some acc' =>
      simp only [processCandidates, hstep] at hp
      exact ih acc' r hp (candStep_nodup _ _ _ _ _ _ hstep hnd)

theorem getElem?_lt_length {α : Type} {l : List α} {i : Nat} {a : α}
    (h : l[i]? = some a) : i < l.length := by
  by_contra hc
  rw [List.getElem?_eq_none (Nat.le_of_not_lt hc)] at h
  exact Option.noConfusion h

theorem nodup_getElem?_inj {α : Type} {l : List α} (hnd : l.Nodup)
    {i j : Nat} {a : α} (hi : l[i]? = some a) (hj : l[j]? = some a) :
    i = j :=
  List.getElem?_inj (getElem?_lt_length hi) hnd (hi.trans hj.symm)

theorem getD_eq_of_getElem? {α : Type} {l : List α} {i : Nat} {a d : α}
    (h : l[i]? = some a) : l.getD i d = a := by
  simp [List.getD, h]

theorem mem_insertSet_self (l : List Nat) (p : Nat) : p ∈ insertSet l p := by
  by_cases h : p ∈ l <;> simp [insertSet, h]

theorem mem_insertSet_mono (l : List Nat) (p q : Nat) (h : q ∈ l) :
    q ∈ insertSet l p := by
  by_cases hp : p ∈ l <;> simp [insertSet, hp, h]

theorem bucketLookup_bucketInsert_self (c : List (Slot × List Nat))
    (v : Slot) (p : Nat) : p ∈ bucketLookup (bucketInsert c v p) v := by
  unfold bucketInsert
  cases hc : lookupA c v with
  | none => simp [bucketLookup, lookupA_insertA_self]
  | some l => simp [bucketLookup, lookupA_insertA_self, mem_insertSet_self]

theorem bucketLookup_bucketInsert_mono (c : List (Slot × List Nat))
    (v w : Slot) (p q : Nat) (h : q ∈ bucketLookup c w) :
    q ∈ bucketLookup (bucketInsert c v p) w := by
  by_cases hvw : w = v
  · subst hvw
    unfold bucketInsert
    cases hc : lookupA c w with
    | none => simp [bucketLookup, hc] at h
    | some l =>
      have hql : q ∈ l := by simpa [bucketLookup, hc] using h
      simp [bucketLookup, lookupA_insertA_self, mem_insertSet_mono _ _ _ hql]
  · unfold bucketInsert
    cases hc : lookupA c v with
    | none => simpa [bucketLookup, lookupA_insertA_ne _ _ _ _ hvw] using h
    | some l => simpa [bucketLookup, lookupA_insertA_ne _ _ _ _ hvw] using h

theorem bucketLookup_foldl_mono (vs : List Slot) (n : Nat) :
    ∀ c w q, q ∈ bucketLookup c w →
    q ∈ bucketLookup (vs.foldl (fun c' x => bucketInsert c' x n) c) w := by
  induction vs with
  | nil => exact fun c w q h => h
  | cons x vs ih =>
    intro c w q h
    rw [List.foldl_cons]
    exact ih _ w q (bucketLookup_bucketInsert_mono c x w n q h)

theorem bucketLookup_foldl_mem (vs : List Slot) (n : Nat) :
    ∀ c v, v ∈ vs →
    n ∈ bucketLookup (vs.foldl (fun c' x => bucketInsert c' x n) c) v := by
  induction vs with
  | nil =>
    intro c v h
    exact absurd h (List.not_mem_nil v)
  | cons x vs ih =>
    intro c v h
    rw [List.foldl_cons]
    rcases List.mem_cons.mp h with h1 | h1
    · subst h1
      exact bucketLookup_foldl_mono vs n _ v n
        (bucketLookup_bucketInsert_self c v n)
    · exact ih _ v h1

theorem addDoc_bucket (lsh : LSH) (id : String) (data : List Slot)
    (v : Slot) (hv : v ∈ data) :
    lsh.ids.length ∈ bucketLookup (lsh.addDoc id data).candidates v :=
  bucketLookup_foldl_mem data lsh.ids.length lsh.candidates v hv

/-- C1: for every index state, id, signature and threshold (over the domain
where `check` does not panic), `check_and_add` computes the check result on
the pre-call state, appends the document — new record, id-index entry, and a
bucket entry for every slot value of the signature — if and only if that
result is empty or `add_if_dup` is true, and returns the pre-insert check
result, so the insertion is invisible in the returned similarity map. -/
theorem claim_C1 (lsh : LSH) (new_id : String) (data : List Slot) (θ : ℚ)
    (add_if_dup : Bool)
    (hlen : ∀ hh ∈ lsh.hashes, data.length ≤ hh.length) :
    ∃ r s', lsh.check_and_add new_id data θ add_if_dup = some (r, s') ∧
      lsh.check data θ = some r ∧
      ((r = [] ∨ add_if_dup = true) →
        (s'.ids = lsh.ids ++ [new_id] ∧
         s'.hashes = lsh.hashes ++ [data] ∧
         lookupA s'.id_map new_id = some lsh.ids.length ∧
         ∀ v ∈ data, lsh.ids.length ∈ bucketLookup s'.candidates v)) ∧
      (¬(r = [] ∨ add_if_dup = true) → s' = lsh) := by
  obtain ⟨r, hr⟩ := processCandidates_isSome lsh data θ
    (candidateList lsh data) []
    (fun p _ hh hph => hlen hh (List.getElem?_mem hph))
  have hcheck : lsh.check data θ = some r := hr
  by_cases hcond : (r.isEmpty || add_if_dup) = true
  · refine ⟨r, lsh.addDoc new_id data, ?_, hcheck, ?_, ?_⟩
    · simp [LSH.check_and_add, hcheck, hcond]
    · intro _
      exact ⟨rfl, rfl, lookupA_insertA_self _ _ _,
        fun v hv => addDoc_bucket lsh new_id data v hv⟩
    · intro hn
      exfalso
      apply hn
      rcases Bool.or_eq_true_iff.mp hcond with hor | hor
      · exact Or.inl (List.isEmpty_iff.mp hor)
      · exact Or.inr hor
  · refine ⟨r, lsh, ?_, hcheck, ?_, fun _ => rfl⟩
    · simp only [LSH.check_and_add, hcheck, hcond]
      simp [Bool.not_eq_true] at hcond
      simp [hcond]
    · intro hc
      exfalso
      rcases hc with hc | hc
      · subst hc
        simp at hcond
      · simp [hc] at hcond

/-- C1 witness: on the empty index with query signature `[5]` and
`add_if_dup = false`, `check_and_add` returns the empty pre-insert result and
appends the document. -/
theorem claim_C1_witness :
    ∃ r s', LSH.new.check_and_add "id1" [5] (1/2) false = some (r, s') ∧
      LSH.new.check [5] (1/2) = some r ∧
      ((r = [] ∨ false = true) →
        (s'.ids = LSH.new.ids ++ ["id1"] ∧
         s'.hashes = LSH.new.hashes ++ [[5]] ∧
         lookupA s'.id_map "id1" = some LSH.new.ids.length ∧
         ∀ v ∈ ([5] : List Slot),
           LSH.new.ids.length ∈ bucketLookup s'.candidates v)) ∧
      (¬(r = [] ∨ false = true) → s' = LSH.new) :=
  claim_C1 LSH.new "id1" [5] (1/2) false (by decide)

/-- C4: when `check` on the pre-call state returns a non-empty map, calling
`check_and_add` with `add_if_dup = false` returns that map and leaves the
entire index state — length, keys, values, id-to-position map and inverted
bucket index — unchanged. -/
theorem claim_C4 (lsh : LSH) (new_id : String) (data : List Slot) (θ : ℚ)
    (r : List (String × ℚ)) (hr : lsh.check data θ = some r)
    (hne : r ≠ []) :
    ∃ s', lsh.check_and_add new_id data θ false = some (r, s') ∧
      s' = lsh ∧ s'.length = lsh.length ∧ s'.keys = lsh.keys ∧
      s'.values = lsh.values ∧ s'.id_map = lsh.id_map ∧
      s'.candidates = lsh.candidates := by
  have hempty : r.isEmpty = false := by
    cases r with
    | nil => exact absurd rfl hne
    | cons a l => rfl
  refine ⟨lsh, ?_, rfl, rfl, rfl, rfl, rfl, rfl⟩
  simp [LSH.check_and_add, hr, hempty]

/-- C4 witness: a corpus holding `id1` with signature `[5]`; checking the
identical signature under `id2` returns `{id1: 1}` and changes nothing. -/
theorem claim_C4_witness :
    ∃ s', (LSH.new.addDoc "id1" [5]).check_and_add "id2" [5] (1/2) false =
        some ([("id1", 1)], s') ∧
      s' = LSH.new.addDoc "id1" [5] ∧
      s'.length = (LSH.new.addDoc "id1" [5]).length ∧
      s'.keys = (LSH.new.addDoc "id1" [5]).keys ∧
      s'.values = (LSH.new.addDoc "id1" [5]).values ∧
      s'.id_map = (LSH.new.addDoc "id1" [5]).id_map ∧
      s'.candidates = (LSH.new.addDoc "id1" [5]).candidates :=
  claim_C4 (LSH.new.addDoc "id1" [5]) "id2" [5] (1/2) [("id1", 1)]
    (by with_unfolding_all decide) (by decide)

/-- C3: the index operations are total over the documented input domain —
whenever every stored signature is at least as long as the query (in
particular under the spec's uniform-length invariant), `check` and
`check_and_add` return a result, and the empty query signature, the empty
corpus and a fresh index all produce well-defined empty results. -/
theorem claim_C3 (lsh : LSH) (new_id : String) (data : List Slot) (θ : ℚ)
    (add_if_dup : Bool)
    (hlen : ∀ hh ∈ lsh.hashes, data.length ≤ hh.length) :
    (∃ r, lsh.check data θ = some r) ∧
    (∃ rs, lsh.check_and_add new_id data θ add_if_dup = some rs) ∧
    lsh.check [] θ = some [] ∧
    LSH.new.check data θ = some [] ∧
    LSH.new.keys = [] ∧ LSH.new.values = [] ∧ LSH.new.length = 0 := by
  obtain ⟨r, hr⟩ := processCandidates_isSome lsh data θ
    (candidateList lsh data) []
    (fun p _ hh hph => hlen hh (List.getElem?_mem hph))
  refine ⟨⟨r, hr⟩, ⟨(r, if r.isEmpty || add_if_dup then
      lsh.addDoc new_id data else lsh), ?_⟩, ?_, ?_, rfl, rfl, rfl⟩
  · have hcheck : lsh.check data θ = some r := hr
    simp [LSH.check_and_add, hcheck]
  · simp [LSH.check, candidateList, processCandidates]
  · have hflat : data.flatMap (fun v => bucketLookup LSH.new.candidates v)
        = [] := by
      induction data with
      | nil => rfl
      | cons d ds ih => simp [List.flatMap_cons, ih, bucketLookup, lookupA,
          LSH.new]
    simp [LSH.check, candidateList, hflat, processCandidates]

/-- C3 witness: the totality hypothesis and the conclusions evaluated on the
one-document index with matching-length query `[7]`. -/
theorem claim_C3_witness :
    (∃ r, (LSH.new.addDoc "id1" [5]).check [7] (3/4) = some r) ∧
    (∃ rs, (LSH.new.addDoc "id1" [5]).check_and_add "id2" [7] (3/4) true =
      some rs) ∧
    (LSH.new.addDoc "id1" [5]).check [] (3/4) = some [] ∧
    LSH.new.check [7] (3/4) = some [] ∧
    LSH.new.keys = [] ∧ LSH.new.values = [] ∧ LSH.new.length = 0 :=
  claim_C3 (LSH.new.addDoc "id1" [5]) "id2" [7] (3/4) true (by decide)

/-- C10: the map returned by `check` (and hence returned by `check_and_add`)
holds at most one entry per distinct id — its key list is duplicate-free —
and any entry's value is the similarity of one of the qualifying stored
records carrying that id; meanwhile inserting a document under an existing
id still appends it to `keys()` and increments `length()`, and the
id-to-position map keeps only the most recently inserted position. -/
theorem claim_C10 (lsh : LSH) (data : List Slot) (θ : ℚ)
    (r : List (String × ℚ)) (hr : lsh.check data θ = some r)
    (id new_id : String) (v : ℚ) (sig : List Slot) :
    (r.map Prod.fst).Nodup ∧
    (lookupA r id = some v →
      ∃ (p : Nat) (hh : List Slot), lsh.ids[p]? = some id ∧ lsh.hashes[p]? = some hh ∧
        similarity_threshold data hh = some v ∧ θ ≤ v) ∧
    (lsh.addDoc new_id sig).keys = lsh.keys ++ [new_id] ∧
    (lsh.addDoc new_id sig).length = lsh.length + 1 ∧
    lookupA (lsh.addDoc new_id sig).id_map new_id = some lsh.ids.length := by
  refine ⟨?_, ?_, rfl, ?_, lookupA_insertA_self _ _ _⟩
  · exact processCandidates_nodup lsh data θ (candidateList lsh data) [] r hr
      (by simp)
  · intro hl
    rcases processCandidates_sound lsh data θ (candidateList lsh data) [] r
        hr id v hl with h | ⟨p, _, hpid, hh, hph, hsim, hθv⟩
    · simp [lookupA] at h
    · exact ⟨p, hh, hpid, hph, hsim, hθv⟩
  · simp [LSH.addDoc, LSH.length]

/-- C10 witness: two records both named "a" with signature `[5]`; checking
`[5]` collapses them into the single entry `("a", 1)`, while `keys`, `length`
and `id_map` behave as stated on a further duplicate insert. -/
theorem claim_C10_witness :
    (([("a", (1 : ℚ))].map Prod.fst).Nodup ∧
    (lookupA [("a", (1 : ℚ))] "a" = some 1 →
      ∃ (p : Nat) (hh : List Slot),
        ((LSH.new.addDoc "a" [5]).addDoc "a" [5]).ids[p]? = some "a" ∧
        ((LSH.new.addDoc "a" [5]).addDoc "a" [5]).hashes[p]? = some hh ∧
        similarity_threshold [5] hh = some 1 ∧ (1 : ℚ)/2 ≤ 1) ∧
    (((LSH.new.addDoc "a" [5]).addDoc "a" [5]).addDoc "a" [5]).keys =
      ((LSH.new.addDoc "a" [5]).addDoc "a" [5]).keys ++ ["a"] ∧
    (((LSH.new.addDoc "a" [5]).addDoc "a" [5]).addDoc "a" [5]).length =
      ((LSH.new.addDoc "a" [5]).addDoc "a" [5]).length + 1 ∧
    lookupA (((LSH.new.addDoc "a" [5]).addDoc "a" [5]).addDoc "a" [5]).id_map
        "a" =
      some ((LSH.new.addDoc "a" [5]).addDoc "a" [5]).ids.length) :=
  claim_C10 ((LSH.new.addDoc "a" [5]).addDoc "a" [5]) [5] (1/2)
    [("a", 1)] (by with_unfolding_all decide) "a" "a" 1 [5]

/-- C2 counterexample: at threshold 0 the claim fails. The index holds one
document "a" with signature `[2]`, every stored signature has the query's
length, and against the query `[1]` the document agrees in t = 0 of k = 1
slots, so t/k = 0 >= 0 and the claim says it must be returned; but `check`
returns the empty map, because the document shares no slot value with the
query and thus never becomes a candidate. -/
theorem claim_C2_counterexample :
    (∀ hh ∈ (LSH.new.addDoc "a" [2]).hashes,
      hh.length = ([1] : List Slot).length) ∧
    (LSH.new.addDoc "a" [2]).ids[0]? = some "a" ∧
    (LSH.new.addDoc "a" [2]).hashes[0]? = some [2] ∧
    (matchCount [1] [2] : ℚ) / (([1] : List Slot).length : ℚ) = 0 ∧
    ((0 : ℚ) ≤ 0) ∧
    (LSH.new.addDoc "a" [2]).check [1] 0 = some [] := by
  with_unfolding_all decide

/-- C2 (amended): for every well-formed index whose stored ids are pairwise
distinct and whose stored signatures all have the same length k as the query
signature, and every threshold strictly greater than 0, `check` returns
exactly those stored documents for which t/k >= threshold (t the number of
position-aligned slot agreements), keyed by the stored id with value t/k,
with an inclusive boundary. -/
theorem claim_C2_amended (lsh : LSH) (data : List Slot) (θ : ℚ)
    (hwf : lsh.WF) (hnd : lsh.ids.Nodup) (hθ : 0 < θ)
    (hlen : ∀ hh ∈ lsh.hashes, hh.length = data.length) :
    ∃ r, lsh.check data θ = some r ∧
      ∀ id v, lookupA r id = some v ↔
        ∃ (p : Nat) (hh : List Slot), lsh.ids[p]? = some id ∧
          lsh.hashes[p]? = some hh ∧
          v = (matchCount data hh : ℚ) / (data.length : ℚ) ∧ θ ≤ v := by
  obtain ⟨r, hr⟩ := processCandidates_isSome lsh data θ
    (candidateList lsh data) []
    (fun p _ hh hph => le_of_eq (hlen hh (List.getElem?_mem hph)).symm)
  refine ⟨r, hr, ?_⟩
  intro id v
  constructor
  · intro hl
    rcases processCandidates_sound lsh data θ (candidateList lsh data) [] r
        hr id v hl with h | ⟨p, _, hpid, hh, hph, hsim, hθv⟩
    · simp [lookupA] at h
    · have hcond : data.length ≤ hh.length :=
        le_of_eq (hlen hh (List.getElem?_mem hph)).symm
      have hveq : v = (matchCount data hh : ℚ) / (data.length : ℚ) := by
        simp [similarity_threshold, hcond] at hsim
        exact hsim.symm
      exact ⟨p, hh, hpid, hph, hveq, hθv⟩
  · rintro ⟨p, hh, hpid, hph, hveq, hθv⟩
    have hcond : data.length ≤ hh.length :=
      le_of_eq (hlen hh (List.getElem?_mem hph)).symm
    have hsim : similarity_threshold data hh = some v := by
      simp [similarity_threshold, hcond, hveq]
    have hvpos : 0 < v := lt_of_lt_of_le hθ hθv
    have hmc : matchCount data hh ≠ 0 := by
      intro h0
      rw [hveq] at hvpos
      rw [h0] at hvpos
      simp at hvpos
    have hfilterpos :
        0 < ((data.zip hh).filter (fun q => q.1 == q.2)).length :=
      Nat.pos_of_ne_zero hmc
    obtain ⟨q, hq⟩ := List.exists_mem_of_length_pos hfilterpos
    have hqz := List.mem_filter.mp hq
    have hqeq : q.1 = q.2 := by simpa using hqz.2
    have hq1 : q.1 ∈ data := (List.of_mem_zip hqz.1).1
    have hq2 : q.2 ∈ hh := (List.of_mem_zip hqz.1).2
    have hplen : p < lsh.hashes.length := getElem?_lt_length hph
    have hbucket : p ∈ bucketLookup lsh.candidates q.2 := by
      refine hwf.2 p (List.mem_range.mpr hplen) q.2 ?_
      rw [getD_eq_of_getElem? hph]
      exact hq2
    have hcand : p ∈ candidateList lsh data := by
      rw [candidateList, List.mem_dedup]
      refine List.mem_flatMap.mpr ⟨q.1, hq1, ?_⟩
      rw [hqeq]
      exact hbucket
    have huniq : ∀ q' ∈ candidateList lsh data,
        lsh.ids[q']? = some id → q' = p :=
      fun q' _ hq' => nodup_getElem?_inj hnd hq' hpid
    exact processCandidates_complete lsh data θ id v p hh hpid hph hsim hθv
      (candidateList lsh data) huniq hcand [] r hr

/-- C2 amended witness: the one-document index `{a: [5]}` queried with `[5]`
at threshold 1/2. -/
theorem claim_C2_amended_witness :
    ((LSH.new.addDoc "a" [5]).WF ∧ (LSH.new.addDoc "a" [5]).ids.Nodup ∧
      ((0 : ℚ) < 1/2) ∧
      (∀ hh ∈ (LSH.new.addDoc "a" [5]).hashes,
        hh.length = ([5] : List Slot).length)) ∧
    (∃ r, (LSH.new.addDoc "a" [5]).check [5] (1/2) = some r ∧
      ∀ id v, lookupA r id = some v ↔
        ∃ (p : Nat) (hh : List Slot),
          (LSH.new.addDoc "a" [5]).ids[p]? = some id ∧
          (LSH.new.addDoc "a" [5]).hashes[p]? = some hh ∧
          v = (matchCount [5] hh : ℚ) / (([5] : List Slot).length : ℚ) ∧
          (1 : ℚ)/2 ≤ v) :=
  ⟨⟨by decide, by decide, by norm_num, by decide⟩,
    claim_C2_amended (LSH.new.addDoc "a" [5]) [5] (1/2) (by decide)
      (by decide) (by norm_num) (by decide)⟩

theorem foldl_sketchElem (ls : List (List Char)) :
    ∀ st : SuperMinHashState,
    ls.foldl SuperMinHashState.sketchElem st = ⟨st.size, st.elems ++ ls⟩ := by
  induction ls with
  | nil =>
    intro st
    cases st
    simp
  | cons e ls ih =>
    intro st
    rw [List.foldl_cons, ih]
    simp [SuperMinHashState.sketchElem]

theorem foldr_min_perm (l1 l2 : List Nat) (h : l1.Perm l2) (init : Nat) :
    l1.foldr min init = l2.foldr min init := by
  induction h with
  | nil => rfl
  | cons a _ ih => simp [List.foldr_cons, ih]
  | swap a b l => simp [List.foldr_cons, min_left_comm]
  | trans _ _ ih1 ih2 => exact ih1.trans ih2

theorem get_hsketch_perm (size : Nat) (l1 l2 : List (List Char))
    (h : l1.Perm l2) :
    SuperMinHashState.get_hsketch ⟨size, l1⟩ =
    SuperMinHashState.get_hsketch ⟨size, l2⟩ := by
  unfold SuperMinHashState.get_hsketch
  refine List.map_congr_left ?_
  intro i _
  exact foldr_min_perm _ _ (h.map (slotHash i)) _

theorem finalize_sketch_reset (ts : TextStages) (h : SuperMinHasher)
    (s : List Char) :
    ((h.sketch ts s).finalize).2 =
      { h with minhash := ⟨h.minhash.size, []⟩ } := by
  simp [SuperMinHasher.sketch, SuperMinHasher.finalize,
    SuperMinHashState.reinit, foldl_sketchElem]

/-- C5: after `finalize()` the accumulator state equals that of a freshly
constructed sketcher with the same configuration — sketching text A,
finalizing, then sketching text B and finalizing yields the same signature
for B as sketching B alone on a fresh instance — and the facade's
`check_and_add` leaves the accumulator in the empty state before returning,
whether the add branch or the pure-check branch was taken. -/
theorem claim_C5 (ts : TextStages) (size n_gram : Nat) (lc un zh pn : Bool)
    (a b : List Char) (f : SuperMinHasherLSH) (new_id : String)
    (text : List Char) (θ : ℚ) (add add_if_dup : Bool)
    (r : List (String × ℚ)) (f' : SuperMinHasherLSH)
    (hf : f.check_and_add ts new_id text θ add add_if_dup = some (r, f')) :
    (∀ h : SuperMinHasher,
      (h.finalize).2.minhash = SuperMinHashState.init h.minhash.size) ∧
    ((((⟨SuperMinHashState.init size, n_gram, lc, un, zh, pn⟩ :
        SuperMinHasher).sketch ts a).finalize.2.sketch ts b).finalize.1 =
      ((⟨SuperMinHashState.init size, n_gram, lc, un, zh, pn⟩ :
        SuperMinHasher).sketch ts b).finalize.1) ∧
    f'.minhasher.minhash =
      SuperMinHashState.init f.minhasher.minhash.size := by
  refine ⟨fun h => rfl, ?_, ?_⟩
  · rw [finalize_sketch_reset]
    rfl
  · simp only [SuperMinHasherLSH.check_and_add] at hf
    by_cases hadd : add = true
    · rw [if_pos hadd] at hf
      cases hca : f.lsh.check_and_add new_id
          ((f.minhasher.sketch ts text).finalize).1 θ add_if_dup with
      | none => simp [hca] at hf
      | some pr =>
        obtain ⟨r0, lsh0⟩ := pr
        simp only [hca, Option.some.injEq, Prod.mk.injEq] at hf
        rw [← hf.2]
        simp [SuperMinHasher.finalize, SuperMinHasher.sketch,
          SuperMinHashState.reinit, SuperMinHashState.init, foldl_sketchElem]
    · rw [if_neg hadd] at hf
      cases hc : f.lsh.check ((f.minhasher.sketch ts text).finalize).1 θ with
      | none => simp [hc] at hf
      | some r0 =>
        simp only [hc, Option.some.injEq, Prod.mk.injEq] at hf
        rw [← hf.2]
        simp [SuperMinHasher.finalize, SuperMinHasher.sketch,
          SuperMinHashState.reinit, SuperMinHashState.init, foldl_sketchElem]

/-- C5 witness: a concrete facade call (size 1, n-gram 1, all toggles off,
identity stages) on text "a" whose accumulator ends empty. -/
theorem claim_C5_witness :
    (∀ h : SuperMinHasher,
      (h.finalize).2.minhash = SuperMinHashState.init h.minhash.size) ∧
    ((((⟨SuperMinHashState.init 1, 1, false, false, false, false⟩ :
        SuperMinHasher).sketch ⟨id, id, id, id⟩ ['a']).finalize.2.sketch
          ⟨id, id, id, id⟩ ['b']).finalize.1 =
      ((⟨SuperMinHashState.init 1, 1, false, false, false, false⟩ :
        SuperMinHasher).sketch ⟨id, id, id, id⟩ ['b']).finalize.1) ∧
    (⟨⟨1, []⟩, 1, false, false, false, false⟩ :
        SuperMinHasher).minhash =
      SuperMinHashState.init
        ((⟨LSH.new, ⟨⟨1, []⟩, 1, false, false, false, false⟩⟩ :
          SuperMinHasherLSH)).minhasher.minhash.size :=
  claim_C5 ⟨id, id, id, id⟩ 1 1 false false false false ['a'] ['b']
    ⟨LSH.new, ⟨⟨1, []⟩, 1, false, false, false, false⟩⟩ "x" ['a'] (1/2)
    true false []
    ⟨LSH.new.addDoc "x" [98], ⟨⟨1, []⟩, 1, false, false, false, false⟩⟩
    (by with_unfolding_all decide)

/-- C6: sketcher construction, and facade construction which forwards the
same parameters, fails with an invalid-argument error — and no object is
constructed — if and only if `size == 0` or `n_gram == 0`; for all other
parameter combinations construction succeeds with a fresh accumulator and
(for the facade) an empty index. -/
theorem claim_C6 (size n_gram : Nat) (lc un zh pn : Bool) :
    ((SuperMinHasher.new size n_gram lc un zh pn).isOk ↔
      (size ≠ 0 ∧ n_gram ≠ 0)) ∧
    ((SuperMinHasherLSH.new size n_gram lc un zh pn).isOk ↔
      (size ≠ 0 ∧ n_gram ≠ 0)) ∧
    (SuperMinHasher.new size n_gram lc un zh pn =
      if size = 0 then Except.error "size must be greater than 0"
      else if n_gram = 0 then Except.error "n_gram must be greater than 0"
      else Except.ok ⟨SuperMinHashState.init size, n_gram,
        lc, un, zh, pn⟩) ∧
    (SuperMinHasherLSH.new size n_gram lc un zh pn =
      if size = 0 then Except.error "size must be greater than 0"
      else if n_gram = 0 then Except.error "n_gram must be greater than 0"
      else Except.ok ⟨LSH.new, ⟨SuperMinHashState.init size, n_gram,
        lc, un, zh, pn⟩⟩) := by
  by_cases hs : size = 0
  · simp [SuperMinHasher.new, SuperMinHasherLSH.new, hs, Except.isOk, Except.toBool]
  · by_cases hn : n_gram = 0
    · simp [SuperMinHasher.new, SuperMinHasherLSH.new, hs, hn, Except.isOk, Except.toBool]
    · simp [SuperMinHasher.new, SuperMinHasherLSH.new, hs, hn, Except.isOk, Except.toBool]

/-- C7: after preprocessing, the character sequence (code points, modelled as
`List Char`) is split into the overlapping windows of exactly `n_gram`
consecutive characters, fed to the accumulator in left-to-right order; a
processed text with fewer than `n_gram` characters is fed whole as one
single shingle. -/
theorem claim_C7 (ts : TextStages) (h : SuperMinHasher) (s cs : List Char)
    (i : Nat) :
    ((h.sketch ts s).minhash.elems =
      h.minhash.elems ++ shingles h.n_gram (preprocess ts h s)) ∧
    (cs.length < h.n_gram → shingles h.n_gram cs = [cs]) ∧
    (h.n_gram ≤ cs.length →
      (shingles h.n_gram cs).length = cs.length - h.n_gram + 1) ∧
    (h.n_gram ≤ cs.length → i < cs.length - h.n_gram + 1 →
      (shingles h.n_gram cs)[i]? = some ((cs.drop i).take h.n_gram) ∧
      ((cs.drop i).take h.n_gram).length = h.n_gram) := by
  refine ⟨?_, ?_, ?_, ?_⟩
  · simp [SuperMinHasher.sketch, foldl_sketchElem]
  · intro hlt
    simp [shingles, hlt]
  · intro hge
    simp [shingles, Nat.not_lt.mpr hge]
  · intro hge hi
    constructor
    · simp [shingles, Nat.not_lt.mpr hge, List.getElem?_map,
        List.getElem?_range, hi]
    · simp only [List.length_take, List.length_drop]
      omega

/-- C7 witness: with n-gram 2, the one-character text is a single shingle,
and "abc" yields the two windows "ab", "bc", the second with the stated
content and length. -/
theorem claim_C7_witness :
    ((SuperMinHasher.sketch ⟨id, id, id, id⟩
        ⟨⟨4, []⟩, 2, true, true, true, true⟩ ['x']).minhash.elems =
      (⟨⟨4, []⟩, 2, true, true, true, true⟩ :
        SuperMinHasher).minhash.elems ++
        shingles 2 (preprocess ⟨id, id, id, id⟩
          ⟨⟨4, []⟩, 2, true, true, true, true⟩ ['x'])) ∧
    shingles 2 ['a'] = [['a']] ∧
    (shingles 2 ['a', 'b', 'c']).length = 3 - 2 + 1 ∧
    ((shingles 2 ['a', 'b', 'c'])[1]? =
      some ((['a', 'b', 'c'].drop 1).take 2) ∧
      ((['a', 'b', 'c'].drop 1).take 2).length = 2) :=
  ⟨(claim_C7 ⟨id, id, id, id⟩ ⟨⟨4, []⟩, 2, true, true, true, true⟩
      ['x'] ['a'] 0).1,
   (claim_C7 ⟨id, id, id, id⟩ ⟨⟨4, []⟩, 2, true, true, true, true⟩
      ['x'] ['a'] 0).2.1 (by decide),
   (claim_C7 ⟨id, id, id, id⟩ ⟨⟨4, []⟩, 2, true, true, true, true⟩
      ['x'] ['a', 'b', 'c'] 1).2.2.1 (by decide),
   (claim_C7 ⟨id, id, id, id⟩ ⟨⟨4, []⟩, 2, true, true, true, true⟩
      ['x'] ['a', 'b', 'c'] 1).2.2.2 (by decide) (by decide)⟩

/-- C8: `sketch` applies exactly the four preprocessing stages in the fixed
order — (1) Unicode compatibility normalization, (2) whitespace/punctuation
folding, (3) script unification, (4) lowercasing — each applied if and only
if its construction-time toggle is true. -/
theorem claim_C8 (ts : TextStages) (h : SuperMinHasher) (s : List Char) :
    preprocess ts h s =
      applyIf h.lowercase ts.lower
        (applyIf h.zh_conv ts.zhToHans
          (applyIf h.punct_norm ts.spPunctFold
            (applyIf h.unicode_normalize ts.nfkc s))) := by
  simp only [preprocess, applyIf]

/-- C9: the finalized signature depends only on the multiset of shingles fed
to the accumulator, not the insertion order: any permutation of the shingle
sequence fed into a fresh accumulator of the same size yields the identical
signature from `finalize()`. -/
theorem claim_C9 (size n_gram : Nat) (lc un zh pn : Bool)
    (l1 l2 : List (List Char)) (hperm : l1.Perm l2) :
    (SuperMinHasher.finalize ⟨l1.foldl SuperMinHashState.sketchElem
        (SuperMinHashState.init size), n_gram, lc, un, zh, pn⟩).1 =
    (SuperMinHasher.finalize ⟨l2.foldl SuperMinHashState.sketchElem
        (SuperMinHashState.init size), n_gram, lc, un, zh, pn⟩).1 := by
  show (l1.foldl SuperMinHashState.sketchElem
      (SuperMinHashState.init size)).get_hsketch =
    (l2.foldl SuperMinHashState.sketchElem
      (SuperMinHashState.init size)).get_hsketch
  rw [foldl_sketchElem, foldl_sketchElem]
  exact get_hsketch_perm size _ _ (by simpa using hperm)

/-- C9 witness: swapping the two shingles "a", "b" on a size-2 accumulator
yields the same finalized signature. -/
theorem claim_C9_witness :
    (([['a'], ['b']] : List (List Char)).Perm [['b'], ['a']]) ∧
    (SuperMinHasher.finalize ⟨[['a'], ['b']].foldl
        SuperMinHashState.sketchElem (SuperMinHashState.init 2),
        5, true, true, true, true⟩).1 =
    (SuperMinHasher.finalize ⟨[['b'], ['a']].foldl
        SuperMinHashState.sketchElem (SuperMinHashState.init 2),
        5, true, true, true, true⟩).1 :=
  ⟨by decide, claim_C9 2 5 true true true true [['a'], ['b']] [['b'], ['a']]
    (by decide)⟩
